import Mathlib

/-!
# cloudflared.c: URL extraction, stability tracking, notification and marker persistence

A shallow embedding of the core of `src/cloudflared.c`:

* `trim_trailing`, `normalize_url`, `extract_trycloudflare` (lines 187-224),
* the body of the polling loop of `main` (lines 327-352), split into the candidate
  tracker (`track`, lines 330-337) and the notifier branch (`notify`, lines 340-348),
* `atomic_write`, `read_last_sent`, `write_last_sent` (lines 106-138) over an explicit
  file-system state with injected system-call outcomes.

A C string is represented by the list of its characters before the terminating NUL;
the byte `b` is the `Char` with code point `b`.  The functions only compare characters
with ASCII constants, so every other character is opaque to them.
-/

namespace Cloudflared

/-- A C string: the characters before the terminating NUL. -/
abbrev CStr := List Char

/-! ## Constants (lines 16-42) -/

def OUTLOG : CStr := "/var/log/.cache.log".toList
def LAST_SENT_DIR : CStr := "/var/lib/gcc-notify".toList
def LAST_SENT_FILE : CStr := LAST_SENT_DIR ++ "/last_sent".toList
def STABLE_COUNT : Nat := 3
def MAXURL : Nat := 1024

/-- The literal searched for by `extract_trycloudflare` (lines 211, 221). -/
def HTTPS : CStr := "https://".toList
/-- The literal required in an accepted token (line 217). -/
def DOMAIN : CStr := "trycloudflare.com".toList

/-! ## libc helpers -/

/-- The `isspace` of the C locale: space, `\t`, `\n`, `\v`, `\f`, `\r`. -/
def isspace (c : Char) : Bool :=
  c == ' ' || c == '\t' || c == '\n' || c == '\x0b' || c == '\x0c' || c == '\r'

/-- Model of `strstr(hay, needle)`: the suffix of `hay` starting at the first occurrence of
`needle`, or `none` (NULL) when there is none. -/
def strstr : CStr → CStr → Option CStr
  | [], needle => if needle.isPrefixOf [] then some [] else none
  | c :: t, needle => if needle.isPrefixOf (c :: t) then some (c :: t) else strstr t needle

/-- Model of `strncpy(dst, src, n)` into a buffer whose byte `n` is NUL: the C string left in
`dst` is the first `n` characters of `src`. -/
def strncpy (src : CStr) (n : Nat) : CStr := src.take n

/-! ## Extraction (lines 187-224) -/

/-- The punctuation test of `trim_trailing` (lines 192-193). -/
def is_punct (c : Char) : Bool :=
  c == '"' || c == '\'' || c == ')' || c == ']' || c == '}' ||
  c == '.' || c == ',' || c == ';' || c == ':' || c == '|'

/-- Model of `trim_trailing` (lines 188-198): drop characters from the end while the last one is
one of the punctuation characters or white space. -/
def trim_trailing (s : CStr) : CStr :=
  s.rdropWhile (fun c => is_punct c || isspace c)

/-- Model of `normalize_url` (lines 201-207): cut at the first `#`, `trim_trailing`, then drop
trailing `/`. -/
def normalize_url (u : CStr) : CStr :=
  (trim_trailing (u.takeWhile (fun c => c != '#'))).rdropWhile (fun c => c == '/')

/-- The copy loop of line 214: `while (*q && !isspace(*q) && i + 1 < outsz) out[i++] = *q++`,
started at index `i`; the result is what is appended to `out` from index `i` on. -/
def copy_token : CStr → Nat → Nat → CStr
  | [], _, _ => []
  | c :: q, i, outsz =>
    if !isspace c && decide (i + 1 < outsz) then c :: copy_token q (i + 1) outsz else []

/-- The `while (p)` loop of `extract_trycloudflare` (lines 212-222).  `p` is the current
result of `strstr`; every iteration moves `p` strictly to the right, so `fuel` larger than
the length of `p` is never exhausted (`extract_loop_fuel`). -/
def extract_loop : Nat → Option CStr → Nat → Option CStr
  | 0, _, _ => none
  | _ + 1, none, _ => none
  | fuel + 1, some p, outsz =>
    let out := trim_trailing (copy_token p 0 outsz)
    if (strstr out DOMAIN).isSome then some (normalize_url out)
    else extract_loop fuel (strstr p.tail HTTPS) outsz

/-- Model of `extract_trycloudflare(line, out, outsz)` (lines 210-224): `some out` when it returns 1
with `out` filled, `none` when it returns 0. -/
def extract_trycloudflare (line : CStr) (outsz : Nat) : Option CStr :=
  extract_loop (line.length + 1) (strstr line HTTPS) outsz

/-! ### The extractor in the words of the specification -/

/-- The tokens of a line: for every occurrence of `https://`, in order, the maximal run of
non-white-space characters starting there, cut to `outsz - 1` characters, with trailing
punctuation trimmed. -/
def https_tokens (line : CStr) (outsz : Nat) : List CStr :=
  (line.tails.filter (fun t => HTTPS.isPrefixOf t)).map
    (fun t => trim_trailing ((t.takeWhile (fun c => !isspace c)).take (outsz - 1)))

/-- Extraction as described: the normalized form of the first token that contains
`trycloudflare.com`. -/
def extract_spec (line : CStr) (outsz : Nat) : Option CStr :=
  ((https_tokens line outsz).find? (fun tok => decide (DOMAIN <:+: tok))).map normalize_url

/-! ## The loop of `main` (lines 316-352) -/

/-- The variables of `main` that the loop body reads and writes. -/
structure State where
  candidate : CStr
  candidate_count : Nat
  last_sent : CStr
  deriving DecidableEq, Repr

/-- What one iteration does besides updating `State`, in program order.  `stable v`
marks entry into the block of line 339 (`candidate_count >= STABLE_COUNT`) with
`candidate = v`; the others are the calls of lines 341-343. -/
inductive Event where
  | stable (v : CStr)
  | write_outlog (url : CStr)
  | send_webhook (domain url : CStr)
  | write_last_sent (url : CStr)
  deriving DecidableEq, Repr

/-- Lines 330-337: start a new candidate or count a repetition. -/
def track (url : CStr) (s : State) : State :=
  if s.candidate = [] ∨ s.candidate ≠ url then
    { s with candidate := strncpy url (MAXURL - 1), candidate_count := 1 }
  else
    { s with candidate_count := s.candidate_count + 1 }

/-- Lines 340-348: the notifier branch. -/
def notify (domain : CStr) (s : State) : State × List Event :=
  if s.last_sent = [] ∨ s.last_sent ≠ s.candidate then
    ({ s with last_sent := strncpy s.candidate (MAXURL - 1) },
     [Event.write_outlog s.candidate, Event.send_webhook domain s.candidate,
      Event.write_last_sent s.candidate])
  else
    (s, [])

/-- Lines 329-351 for one result of `extract_trycloudflare`. -/
def on_result (domain : CStr) (r : Option CStr) (s : State) : State × List Event :=
  match r with
  | none => (s, [])
  | some url =>
    let s1 := track url s
    if s1.candidate_count ≥ STABLE_COUNT then
      let n := notify domain s1
      ({ n.1 with candidate := [], candidate_count := 0 }, Event.stable s1.candidate :: n.2)
    else
      (s1, [])

/-- The loop over a finite sequence of extraction results: final state and all events. -/
def run (domain : CStr) : List (Option CStr) → State → State × List Event
  | [], s => (s, [])
  | r :: rs, s =>
    let a := on_result domain r s
    let b := run domain rs a.1
    (b.1, a.2 ++ b.2)

/-- The loop over a finite sequence of lines returned by `fgets` (lines 327-352): every
line goes through `extract_trycloudflare` with `sizeof(url) = MAXURL`. -/
def main_loop (domain : CStr) (lines : List CStr) (s : State) : State × List Event :=
  run domain (lines.map (fun l => extract_trycloudflare l MAXURL)) s

/-- State at loop entry (lines 309-317) with cached marker `m`. -/
def init (m : CStr) : State := { candidate := [], candidate_count := 0, last_sent := m }

/-- The values of the `Stable` events of a trace. -/
def stables : List Event → List CStr
  | [] => []
  | Event.stable v :: es => v :: stables es
  | _ :: es => stables es

/-- The `send_webhook` calls of a trace, as `(domain, url)`. -/
def webhooks : List Event → List (CStr × CStr)
  | [] => []
  | Event.send_webhook d u :: es => (d, u) :: webhooks es
  | _ :: es => webhooks es

/-! ## Marker persistence (lines 106-138) -/

/-- File-system state: the content of every path, `none` when the file does not exist. -/
abbrev FS := CStr → Option CStr

/-- Outcomes of the system calls made by one `atomic_write`. -/
structure Sys where
  /-- The `open` of line 110 returns a descriptor. -/
  open_ok : Bool
  /-- The value returned by `write` (line 112): negative on error, otherwise the number of
  bytes written. -/
  write_ret : Int
  /-- The `rename` of line 115 returns 0. -/
  rename_ok : Bool
  deriving DecidableEq, Repr

/-- The temporary name of line 109: `snprintf(tmp, 1024, "%s.tmp.%d", path, getpid())`. -/
def tmp_name (path : CStr) (pid : Nat) : CStr :=
  (path ++ ".tmp.".toList ++ (Nat.toDigits 10 pid)).take 1023

/-- Set the content of one path. -/
def FS.set (fs : FS) (p : CStr) (c : Option CStr) : FS :=
  fun q => if q = p then c else fs q

/-- Model of `atomic_write(path, data)` (lines 107-117) for process id `pid` under system-call
outcomes `o`: the returned value and the file system afterwards. -/
def atomic_write (pid : Nat) (o : Sys) (path data : CStr) (fs : FS) : Int × FS :=
  let tmp := tmp_name path pid
  if !o.open_ok then (-1, fs)
  else
    let fs1 := fs.set tmp (some [])
    let w := o.write_ret
    let fs2 := if w < 0 then fs1 else fs1.set tmp (some (data.take w.toNat))
    if w < 0 then (-1, fs2.set tmp none)
    else if !o.rename_ok then (-1, fs2.set tmp none)
    else (0, if tmp = path then fs2 else (fs2.set path (fs2 tmp)).set tmp none)

/-- Model of `read_last_sent(buf, bufsz)` (lines 120-131): the returned value and the C string in
`buf` afterwards.  `open` fails exactly when the file is absent and `read` returns the
first `bufsz - 1` bytes of the file. -/
def read_last_sent (fs : FS) (buf : CStr) (bufsz : Nat) : Int × CStr :=
  match fs LAST_SENT_FILE with
  | none => (0, buf)
  | some content =>
    let got := content.take (bufsz - 1)
    if got.length = 0 then (0, buf)
    else (1, got.takeWhile (fun c => c != '\n'))

/-- Model of `write_last_sent(url)` (lines 134-138); `mkdir` does not touch any regular file. -/
def write_last_sent (pid : Nat) (o : Sys) (url : CStr) (fs : FS) : FS :=
  (atomic_write pid o LAST_SENT_FILE url fs).2

/-- State at loop entry after the start-up of lines 309-317 on file system `fs`. -/
def startup (fs : FS) : State := init (read_last_sent fs [] MAXURL).2

/-- The tracker invariant relative to the matched values seen so far. -/
def Inv (s : State) (hist : List CStr) : Prop :=
  s.candidate_count < STABLE_COUNT ∧ (s.candidate_count = 0 ↔ s.candidate = []) ∧
    List.replicate s.candidate_count s.candidate <:+ hist

/-- A value that `extract_trycloudflare` returns for some line, as called by `main`. -/
def Extracted (v : CStr) : Prop := ∃ line, extract_trycloudflare line MAXURL = some v

/-- The normalized form of a token: what lines 216 and 218 make of it. -/
def normal_form (tok : CStr) : CStr := normalize_url (trim_trailing tok)

/-- The tokens of a line as the buffer holds them: the maximal run of non-white-space
characters at every occurrence of `https://`, cut to `outsz - 1` characters. -/
def https_cut_runs (line : CStr) (outsz : Nat) : List CStr :=
  (line.tails.filter (fun t => HTTPS.isPrefixOf t)).map
    (fun t => (t.takeWhile (fun c => !isspace c)).take (outsz - 1))

/-- Extraction as the specification words it, on the tokens cut to the buffer: the
normalized form of the first token whose normalized form contains `trycloudflare.com`. -/
def extract_claimed_cut (line : CStr) (outsz : Nat) : Option CStr :=
  ((https_cut_runs line outsz).map normal_form).find? (fun u => decide (DOMAIN <:+: u))

/-- System-call outcomes of a save whose `write` stores 5 bytes only. -/
def short_write : Sys := { open_ok := true, write_ret := 5, rename_ok := true }

/-- The line of the scenario of the specification. -/
def sample_line : CStr := "foo https://ex.trycloudflare.com/ bar".toList

/-- The value extracted from `sample_line`. -/
def sample_url : CStr := "https://ex.trycloudflare.com".toList

/-- Two further lines, with distinct values. -/
def line_a : CStr := "INF |  https://a.trycloudflare.com  |".toList
def url_a : CStr := "https://a.trycloudflare.com".toList
def line_b : CStr := "INF |  https://b.trycloudflare.com  |".toList
def url_b : CStr := "https://b.trycloudflare.com".toList

/-- The file system with no file at all. -/
def no_files : FS := fun _ => none

/-- A file system whose marker file holds `m`. -/
def marker_fs (m : CStr) : FS := fun q => if q = LAST_SENT_FILE then some m else none

/-! ## Lemmas on the libc helpers -/

theorem strstr_isSome_iff (hay needle : CStr) :
    (strstr hay needle).isSome = true ↔ needle <:+: hay := by
  induction hay with
  | nil =>
    cases needle with
    | nil => simp [strstr]
    | cons a t => simp [strstr]
  | cons c t ih =>
    unfold strstr
    by_cases h : needle.isPrefixOf (c :: t) = true
    · rw [if_pos h]
      simp only [Option.isSome_some, true_iff]
      exact (List.isPrefixOf_iff_prefix.mp h).isInfix
    · rw [if_neg h, ih, List.infix_cons_iff]
      have h' : ¬ needle <+: c :: t := fun hp => h (List.isPrefixOf_iff_prefix.mpr hp)
      simp [h']

theorem copy_token_eq (p : CStr) (i outsz : Nat) :
    copy_token p i outsz = (p.takeWhile (fun c => !isspace c)).take (outsz - 1 - i) := by
  induction p generalizing i with
  | nil => simp [copy_token]
  | cons c q ih =>
    unfold copy_token
    by_cases hs : isspace c = true
    · simp [hs]
    · simp only [Bool.not_eq_true] at hs
      by_cases hi : i + 1 < outsz
      · have e : outsz - 1 - i = (outsz - 1 - (i + 1)) + 1 := by omega
        simp only [hs, hi, Bool.not_false, decide_True, Bool.and_self, if_true,
          List.takeWhile_cons]
        rw [ih, e, List.take_succ_cons]
      · have e : outsz - 1 - i = 0 := by omega
        simp [hs, hi, e]

/-- The token copied and trimmed at one occurrence (lines 213-216). -/
theorem token_eq (p : CStr) (outsz : Nat) :
    trim_trailing (copy_token p 0 outsz) =
      trim_trailing ((p.takeWhile (fun c => !isspace c)).take (outsz - 1)) := by
  rw [copy_token_eq]; rfl

/-- The loop of `extract_trycloudflare` never runs out of fuel: with more fuel than the
length of the remaining text it computes the fuel-free `extract_spec`. -/
theorem extract_loop_eq (outsz : Nat) (l : CStr) :
    ∀ fuel, l.length < fuel →
      extract_loop fuel (strstr l HTTPS) outsz = extract_spec l outsz := by
  induction l with
  | nil =>
    intro fuel hf
    cases fuel with
    | zero => omega
    | succ n => simp [strstr, HTTPS, extract_loop, extract_spec, https_tokens]
  | cons c t ih =>
    intro fuel hf
    cases fuel with
    | zero => omega
    | succ n =>
      have hn : t.length < n := by simpa using hf
      by_cases h : HTTPS.isPrefixOf (c :: t) = true
      · have e1 : strstr (c :: t) HTTPS = some (c :: t) := by
          unfold strstr; rw [if_pos h]
        rw [e1]
        simp only [extract_loop, List.tail_cons]
        rw [token_eq, ih n hn]
        simp only [extract_spec, https_tokens, List.tails_cons, List.filter_cons, h, if_true,
          List.map_cons, List.find?_cons]
        by_cases hd : DOMAIN <:+:
            trim_trailing ((List.takeWhile (fun c => !isspace c) (c :: t)).take (outsz - 1))
        · have hs := (strstr_isSome_iff _ DOMAIN).mpr hd
          simp [hs, hd]
        · have hs : (strstr (trim_trailing
              ((List.takeWhile (fun c => !isspace c) (c :: t)).take (outsz - 1))) DOMAIN).isSome
              = false := by
            rw [Bool.eq_false_iff]
            exact fun hh => hd ((strstr_isSome_iff _ DOMAIN).mp hh)
          simp [hs, hd]
      · have e1 : strstr (c :: t) HTTPS = strstr t HTTPS := by
          conv_lhs => unfold strstr
          rw [if_neg h]
        rw [e1, ih (n + 1) (by omega)]
        simp only [Bool.not_eq_true] at h
        simp [extract_spec, https_tokens, List.tails_cons, List.filter_cons, h]

theorem extract_eq_spec (line : CStr) (outsz : Nat) :
    extract_trycloudflare line outsz = extract_spec line outsz :=
  extract_loop_eq outsz line (line.length + 1) (Nat.lt_succ_self _)

/-- Extra fuel does not change the result of the loop. -/
theorem extract_loop_fuel (line : CStr) (outsz fuel : Nat) (h : line.length < fuel) :
    extract_loop fuel (strstr line HTTPS) outsz = extract_trycloudflare line outsz := by
  rw [extract_loop_eq outsz line fuel h, extract_eq_spec]

/-! ## Shape of the extracted value -/

theorem rdropWhile_getLast (p : Char → Bool) (l : CStr) (c : Char)
    (h : (l.rdropWhile p).getLast? = some c) : p c = false := by
  have hne : l.rdropWhile p ≠ [] := by
    intro e; rw [e] at h; simp at h
  have hl := List.rdropWhile_last_not (p := p) (l := l) hne
  rw [List.getLast?_eq_getLast _ hne] at h
  have e : (l.rdropWhile p).getLast hne = c := by simpa using h
  rw [e] at hl
  simpa using hl

theorem rdropWhile_eq_replicate (a : Char) (l : CStr) :
    ∃ k, l.rdropWhile (fun c => c == a) ++ List.replicate k a = l := by
  induction l using List.reverseRecOn with
  | nil => exact ⟨0, by simp⟩
  | append_singleton l x ih =>
    obtain ⟨k, hk⟩ := ih
    by_cases hx : (x == a) = true
    · refine ⟨k + 1, ?_⟩
      rw [List.rdropWhile_concat_pos (fun c => c == a) l x hx, List.replicate_succ',
        ← List.append_assoc, hk]
      have : x = a := by simpa using hx
      rw [this]
    · refine ⟨0, ?_⟩
      rw [List.rdropWhile_concat_neg (fun c => c == a) l x hx]
      simp

theorem prefix_rdropWhile (p : Char → Bool) (a : CStr) (x : Char) (hx : p x = false)
    (b : CStr) : a ++ [x] <+: (a ++ [x] ++ b).rdropWhile p := by
  induction b using List.reverseRecOn with
  | nil =>
    rw [List.append_nil, List.rdropWhile_concat_neg _ _ _ (by simp [hx])]
  | append_singleton b y ih =>
    rw [← List.append_assoc]
    by_cases hy : p y = true
    · rw [List.rdropWhile_concat_pos _ _ _ hy]; exact ih
    · rw [List.rdropWhile_concat_neg _ _ _ hy, List.append_assoc]
      exact List.prefix_append _ _

theorem prefix_takeWhile (q : Char → Bool) (a t : CStr) (h : a <+: t) (ha : ∀ x ∈ a, q x = true) :
    a <+: t.takeWhile q := by
  obtain ⟨r, rfl⟩ := h
  rw [List.takeWhile_append_of_pos ha]
  exact List.prefix_append _ _

theorem https_prefix_trim (x : CStr) (h : HTTPS <+: x) : HTTPS <+: trim_trailing x := by
  obtain ⟨r, rfl⟩ := h
  exact prefix_rdropWhile _ "https:/".toList '/' (by decide) r

theorem https_prefix_normalize (x : CStr) (h : HTTPS <+: x) :
    "https:".toList <+: normalize_url x := by
  have h1 : HTTPS <+: x.takeWhile (fun c => c != '#') :=
    prefix_takeWhile _ _ _ h (by decide)
  obtain ⟨r, hr⟩ := https_prefix_trim _ h1
  unfold normalize_url
  rw [← hr]
  have e : HTTPS ++ r = "https".toList ++ [':'] ++ ("//".toList ++ r) := by
    simp [HTTPS]
  rw [e]
  exact prefix_rdropWhile _ "https".toList ':' (by decide) _

theorem normalize_url_initial (x : CStr) : normalize_url x <+: x :=
  (List.rdropWhile_prefix _ _).trans
    ((List.rdropWhile_prefix _ _).trans (List.takeWhile_prefix _))

/-- Where a returned value comes from: a suffix `t` of the line starting with `https://`
whose token, cut to `outsz - 1` characters and trimmed, contains `trycloudflare.com`. -/
theorem extract_some_form (line : CStr) (outsz : Nat) (u : CStr)
    (h : extract_trycloudflare line outsz = some u) :
    ∃ t, t <:+ line ∧ HTTPS <+: t ∧
      DOMAIN <:+: trim_trailing ((t.takeWhile (fun c => !isspace c)).take (outsz - 1)) ∧
      u = normalize_url
        (trim_trailing ((t.takeWhile (fun c => !isspace c)).take (outsz - 1))) := by
  rw [extract_eq_spec] at h
  unfold extract_spec at h
  rw [Option.map_eq_some'] at h
  obtain ⟨tok, hfind, hu⟩ := h
  have hq := List.find?_some hfind
  have hmem := List.mem_of_find?_eq_some hfind
  unfold https_tokens at hmem
  rw [List.mem_map] at hmem
  obtain ⟨t, ht, htok⟩ := hmem
  rw [List.mem_filter] at ht
  refine ⟨t, (List.mem_tails _ _).mp ht.1, List.isPrefixOf_iff_prefix.mp ht.2, ?_, ?_⟩
  · rw [htok]; simpa using hq
  · rw [htok]; exact hu.symm

theorem extract_length (line : CStr) (outsz : Nat) (u : CStr)
    (h : extract_trycloudflare line outsz = some u) : u.length ≤ outsz - 1 := by
  obtain ⟨t, -, -, -, rfl⟩ := extract_some_form line outsz u h
  have h1 := (normalize_url_initial
    (trim_trailing ((t.takeWhile (fun c => !isspace c)).take (outsz - 1)))).length_le
  have h2 : (trim_trailing ((t.takeWhile (fun c => !isspace c)).take (outsz - 1))).length ≤
      ((t.takeWhile (fun c => !isspace c)).take (outsz - 1)).length :=
    (List.rdropWhile_prefix _ _).length_le
  have h3 : ((t.takeWhile (fun c => !isspace c)).take (outsz - 1)).length ≤ outsz - 1 :=
    List.length_take_le _ _
  omega

theorem extract_no_space (line : CStr) (outsz : Nat) (u : CStr)
    (h : extract_trycloudflare line outsz = some u) : ∀ c ∈ u, isspace c = false := by
  obtain ⟨t, -, -, -, rfl⟩ := extract_some_form line outsz u h
  intro c hc
  have h1 := (normalize_url_initial _).subset hc
  have h2 : c ∈ (t.takeWhile (fun c => !isspace c)).take (outsz - 1) :=
    (List.rdropWhile_prefix (fun c => is_punct c || isspace c) _).subset h1
  have h3 := List.mem_takeWhile_imp (List.mem_of_mem_take h2)
  simpa using h3

theorem extract_https (line : CStr) (outsz : Nat) (u : CStr) (ho : 9 ≤ outsz)
    (h : extract_trycloudflare line outsz = some u) : "https:".toList <+: u := by
  obtain ⟨t, -, ht, -, rfl⟩ := extract_some_form line outsz u h
  apply https_prefix_normalize
  apply https_prefix_trim
  rw [List.prefix_take_iff]
  refine ⟨prefix_takeWhile _ _ _ ht (by decide), ?_⟩
  have : HTTPS.length = 8 := by decide
  omega

/-- What the tracker needs of an extracted value: it is not the empty string and it fits
`candidate` and `last_sent` without truncation. -/
theorem Extracted.ne_nil {v : CStr} (h : Extracted v) : v ≠ [] := by
  obtain ⟨line, hl⟩ := h
  obtain ⟨r, hr⟩ := extract_https line MAXURL v (by decide) hl
  intro e
  rw [e] at hr
  simp at hr

theorem Extracted.strncpy {v : CStr} (h : Extracted v) : strncpy v (MAXURL - 1) = v := by
  obtain ⟨line, hl⟩ := h
  have := extract_length line MAXURL v hl
  unfold Cloudflared.strncpy
  exact List.take_of_length_le this

/-! ## Lemmas on the loop -/

theorem stables_append (a b : List Event) : stables (a ++ b) = stables a ++ stables b := by
  induction a with
  | nil => rfl
  | cons e es ih => cases e <;> simp [stables, ih]

theorem webhooks_append (a b : List Event) : webhooks (a ++ b) = webhooks a ++ webhooks b := by
  induction a with
  | nil => rfl
  | cons e es ih => cases e <;> simp [webhooks, ih]

theorem run_append (domain : CStr) (xs ys : List (Option CStr)) (s : State) :
    run domain (xs ++ ys) s =
      ((run domain ys (run domain xs s).1).1,
        (run domain xs s).2 ++ (run domain ys (run domain xs s).1).2) := by
  induction xs generalizing s with
  | nil => simp [run]
  | cons r rs ih => simp [run, ih, List.append_assoc]

/-- Lines without a match are transparent. -/
theorem run_reduceOption (domain : CStr) (rs : List (Option CStr)) (s : State) :
    run domain rs s = run domain (rs.reduceOption.map some) s := by
  induction rs generalizing s with
  | nil => rfl
  | cons r rs ih =>
    cases r with
    | none =>
      rw [List.reduceOption_cons_of_none]
      simp [run, on_result, ih]
    | some u =>
      rw [List.reduceOption_cons_of_some]
      simp [run, ih]

theorem track_candidate (u : CStr) (s : State) (hu : Extracted u) :
    (track u s).candidate = u := by
  unfold track
  split
  · exact hu.strncpy
  · rename_i h
    simp only [not_or, not_not] at h
    exact h.2

theorem track_count_eq (u : CStr) (s : State) (hu : Extracted u) (h : s.candidate = u) :
    (track u s).candidate_count = s.candidate_count + 1 := by
  unfold track
  have : ¬ (s.candidate = [] ∨ s.candidate ≠ u) := by
    rw [h]; simp [hu.ne_nil]
  rw [if_neg this]

theorem track_count_ne (u : CStr) (s : State) (h : s.candidate ≠ u) :
    (track u s).candidate_count = 1 := by
  unfold track
  rw [if_pos (Or.inr h)]

theorem notify_stables (domain : CStr) (s : State) : stables (notify domain s).2 = [] := by
  unfold notify; split <;> rfl

/-- The three ways one matched line can go. -/
theorem on_result_cases (domain u : CStr) (s : State) (hu : Extracted u) :
    (s.candidate = u ∧ STABLE_COUNT ≤ s.candidate_count + 1 ∧
        stables (on_result domain (some u) s).2 = [u] ∧
        (on_result domain (some u) s).1.candidate = [] ∧
        (on_result domain (some u) s).1.candidate_count = 0) ∨
    (s.candidate = u ∧ s.candidate_count + 1 < STABLE_COUNT ∧
        (on_result domain (some u) s).2 = [] ∧
        (on_result domain (some u) s).1.candidate = u ∧
        (on_result domain (some u) s).1.candidate_count = s.candidate_count + 1) ∨
    (s.candidate ≠ u ∧
        (on_result domain (some u) s).2 = [] ∧
        (on_result domain (some u) s).1.candidate = u ∧
        (on_result domain (some u) s).1.candidate_count = 1) := by
  by_cases hc : s.candidate = u
  · have h1 := track_count_eq u s hu hc
    have h2 := track_candidate u s hu
    by_cases hk : STABLE_COUNT ≤ s.candidate_count + 1
    · left
      refine ⟨hc, hk, ?_, ?_, ?_⟩ <;>
        simp [on_result, h1, h2, hk, stables, notify_stables]
    · right; left
      refine ⟨hc, by omega, ?_, ?_, ?_⟩ <;> simp [on_result, h1, h2, hk]
  · right; right
    have h1 := track_count_ne u s hc
    have h2 := track_candidate u s hu
    refine ⟨hc, ?_, ?_, ?_⟩ <;> simp [on_result, h1, h2, STABLE_COUNT]

/-- Soundness of the tracker: a `Stable(v)` event needs three consecutive `v`. -/
theorem stable_sound (domain : CStr) (vs : List CStr) (hv : ∀ u ∈ vs, Extracted u) :
    ∀ (s : State) (v : CStr), v ∈ stables (run domain (vs.map some) s).2 →
      List.replicate STABLE_COUNT v <:+:
        List.replicate s.candidate_count s.candidate ++ vs := by
  induction vs with
  | nil => intro s v h; simp [run, stables] at h
  | cons u rest ih =>
    intro s v h
    have hu : Extracted u := hv u (List.mem_cons_self _ _)
    have ih' := ih (fun x hx => hv x (List.mem_cons_of_mem _ hx))
    simp only [List.map_cons, run, stables_append, List.mem_append] at h
    have e : List.replicate s.candidate_count s.candidate ++ u :: rest =
        (List.replicate s.candidate_count s.candidate ++ [u]) ++ rest := by simp
    rcases on_result_cases domain u s hu with ⟨hc, hk, h1, h2, h3⟩ | ⟨hc, hk, h1, h2, h3⟩ |
      ⟨hc, h1, h2, h3⟩
    · rcases h with h | h
      · rw [h1] at h
        have hvu : v = u := by simpa using h
        rw [e, hc, hvu, ← List.replicate_succ']
        have : List.replicate STABLE_COUNT u <:+: List.replicate (s.candidate_count + 1) u := by
          have hs : s.candidate_count + 1 = STABLE_COUNT + (s.candidate_count + 1 - STABLE_COUNT) := by
            omega
          rw [hs, List.replicate_add]
          exact (List.prefix_append _ _).isInfix
        exact this.trans (List.prefix_append _ _).isInfix
      · have := ih' _ v h
        rw [h2, h3] at this
        simp only [List.replicate_zero, List.nil_append] at this
        exact this.trans ((List.suffix_cons u rest).isInfix.trans
          (List.suffix_append _ _).isInfix)
    · rcases h with h | h
      · rw [h1] at h; simp [stables] at h
      · have := ih' _ v h
        rw [h2, h3, List.replicate_succ'] at this
        rw [e, hc]
        exact this
    · rcases h with h | h
      · rw [h1] at h; simp [stables] at h
      · have := ih' _ v h
        rw [h2, h3] at this
        exact this.trans (List.suffix_append _ _).isInfix

/-- Three `v` in a row always produce a `Stable(v)` event, from any state. -/
theorem stable_of_three (domain v : CStr) (hv : Extracted v) (rest : List CStr) (s : State) :
    v ∈ stables (run domain ((v :: v :: v :: rest).map some) s).2 := by
  simp only [List.map_cons, run, stables_append, List.mem_append]
  rcases on_result_cases domain v s hv with ⟨-, -, h1, -, -⟩ | ⟨-, hk, -, h2, h3⟩ |
    ⟨-, -, h2, h3⟩
  · left; rw [h1]; simp
  · right
    rcases on_result_cases domain v (on_result domain (some v) s).1 hv with
      ⟨-, -, g1, -, -⟩ | ⟨-, gk, -, g2, g3⟩ | ⟨gc, -, -, -⟩
    · left; rw [g1]; simp
    · right
      rcases on_result_cases domain v
          (on_result domain (some v) (on_result domain (some v) s).1).1 hv with
        ⟨-, -, f1, -, -⟩ | ⟨-, fk, -, -, -⟩ | ⟨fc, -, -, -⟩
      · left; rw [f1]; simp
      · rw [g3, h3] at fk; simp only [STABLE_COUNT] at fk; omega
      · exact absurd g2 fc
    · exact absurd h2 gc
  · right
    rcases on_result_cases domain v (on_result domain (some v) s).1 hv with
      ⟨-, gk, -, -, -⟩ | ⟨-, gk, -, g2, g3⟩ | ⟨gc, -, -, -⟩
    · rw [h3] at gk; simp only [STABLE_COUNT] at gk; omega
    · right
      rcases on_result_cases domain v
          (on_result domain (some v) (on_result domain (some v) s).1).1 hv with
        ⟨-, -, f1, -, -⟩ | ⟨-, fk, -, -, -⟩ | ⟨fc, -, -, -⟩
      · left; rw [f1]; simp
      · rw [g3, h3] at fk; simp only [STABLE_COUNT] at fk; omega
      · exact absurd g2 fc
    · exact absurd h2 gc

/-- Completeness of the tracker. -/
theorem stable_complete (domain v : CStr) (hv : Extracted v) (vs : List CStr) :
    ∀ s : State, List.replicate STABLE_COUNT v <:+: vs →
      v ∈ stables (run domain (vs.map some) s).2 := by
  induction vs with
  | nil => intro s h; simp [STABLE_COUNT] at h
  | cons u rest ih =>
    intro s h
    rcases List.infix_cons_iff.mp h with hp | hi
    · obtain ⟨r, hr⟩ := hp
      have : u :: rest = v :: v :: v :: r := by
        rw [← hr]; simp [STABLE_COUNT, List.replicate]
      rw [this]
      exact stable_of_three domain v hv r s
    · simp only [List.map_cons, run, stables_append, List.mem_append]
      right
      exact ih _ hi

/-- One matched line, computed: the state and the events of lines 330-350. -/
theorem on_result_some_eq (domain u : CStr) (s : State) (hu : Extracted u) :
    on_result domain (some u) s =
      if s.candidate = u then
        if STABLE_COUNT ≤ s.candidate_count + 1 then
          if s.last_sent = u then
            ({ candidate := [], candidate_count := 0, last_sent := s.last_sent },
              [Event.stable u])
          else
            ({ candidate := [], candidate_count := 0, last_sent := u },
              [Event.stable u, Event.write_outlog u, Event.send_webhook domain u,
                Event.write_last_sent u])
        else
          ({ candidate := u, candidate_count := s.candidate_count + 1,
             last_sent := s.last_sent }, [])
      else
        ({ candidate := u, candidate_count := 1, last_sent := s.last_sent }, []) := by
  have hne := hu.ne_nil
  have hcp := hu.strncpy
  by_cases hc : s.candidate = u
  · have ht : track u s = { s with candidate_count := s.candidate_count + 1 } := by
      unfold track
      rw [if_neg (by rw [hc]; simp [hne])]
    rw [if_pos hc]
    by_cases hk : STABLE_COUNT ≤ s.candidate_count + 1
    · rw [if_pos hk]
      by_cases hm : s.last_sent = u
      · rw [if_pos hm]
        simp [on_result, ht, hk, notify, hc, hm, hne]
      · rw [if_neg hm]
        simp [on_result, ht, hk, notify, hc, hm, hcp]
    · rw [if_neg hk]
      simp only [on_result, ht, ge_iff_le, hk, if_false]
      cases s
      simp_all
  · have ht : track u s = { s with candidate := u, candidate_count := 1 } := by
      unfold track
      rw [if_pos (Or.inr hc), hcp]
    rw [if_neg hc]
    simp [on_result, ht, STABLE_COUNT]

/-- What one matched line sends: nothing, or the matched value, which then differs from
the cached marker and replaces it. -/
theorem on_result_webhooks (domain u : CStr) (s : State) (hu : Extracted u) :
    (webhooks (on_result domain (some u) s).2 = [] ∧
        (on_result domain (some u) s).1.last_sent = s.last_sent) ∨
    (webhooks (on_result domain (some u) s).2 = [(domain, u)] ∧
        (on_result domain (some u) s).1.last_sent = u ∧ s.last_sent ≠ u) := by
  rw [on_result_some_eq domain u s hu]
  by_cases hc : s.candidate = u <;> by_cases hk : STABLE_COUNT ≤ s.candidate_count + 1 <;>
    by_cases hm : s.last_sent = u <;> simp [hc, hk, hm, webhooks]

/-- Two `send_webhook` calls in a row never carry the same value, and the first one
differs from the cached marker. -/
theorem run_chain (domain : CStr) (rs : List (Option CStr))
    (hrs : ∀ u, some u ∈ rs → Extracted u) :
    ∀ s : State, List.Chain (fun a b => a ≠ b) s.last_sent
      ((webhooks (run domain rs s).2).map Prod.snd) := by
  induction rs with
  | nil => intro s; simp [run, webhooks]
  | cons r rest ih =>
    intro s
    have ih' := ih (fun u hu => hrs u (List.mem_cons_of_mem _ hu))
    cases r with
    | none => simpa [run, on_result] using ih' s
    | some u =>
      have hu : Extracted u := hrs u (List.mem_cons_self _ _)
      simp only [run, webhooks_append, List.map_append]
      rcases on_result_webhooks domain u s hu with ⟨h1, h2⟩ | ⟨h1, h2, h3⟩
      · rw [h1, ← h2]
        simpa using ih' _
      · rw [h1]
        simp only [List.map_cons, List.map_nil, List.singleton_append, List.chain_cons]
        refine ⟨h3, ?_⟩
        have := ih' (on_result domain (some u) s).1
        rw [h2] at this
        exact this

/-- Once `v` is the cached marker, observations of `v` send nothing. -/
theorem no_resend (domain v : CStr) (hv : Extracted v) (rs : List (Option CStr))
    (hrs : ∀ r ∈ rs, r = some v ∨ r = none) :
    ∀ s : State, s.last_sent = v →
      webhooks (run domain rs s).2 = [] ∧ (run domain rs s).1.last_sent = v := by
  induction rs with
  | nil => intro s hs; simp [run, webhooks, hs]
  | cons r rest ih =>
    intro s hs
    have ih' := ih (fun x hx => hrs x (List.mem_cons_of_mem _ hx))
    rcases hrs r (List.mem_cons_self _ _) with rfl | rfl
    · simp only [run, webhooks_append]
      rcases on_result_webhooks domain v s hv with ⟨h1, h2⟩ | ⟨-, -, h3⟩
      · have := ih' (on_result domain (some v) s).1 (by rw [h2, hs])
        rw [h1, this.1]
        exact ⟨rfl, this.2⟩
      · exact absurd hs h3
    · simpa [run, on_result] using ih' s hs

/-- Number of `Stable(v)` events of `k` observations of `v`, from a state that has already
counted `v` some times (or is tracking something else). -/
theorem stables_replicate (domain v : CStr) (hv : Extracted v) (k : Nat) :
    ∀ s : State, (s.candidate = v → s.candidate_count < STABLE_COUNT) →
      stables (run domain (List.replicate k (some v)) s).2 =
        List.replicate
          (((if s.candidate = v then s.candidate_count else 0) + k) / STABLE_COUNT) v := by
  induction k with
  | zero =>
    intro s hs
    have : ((if s.candidate = v then s.candidate_count else 0) + 0) / STABLE_COUNT = 0 := by
      by_cases hc : s.candidate = v
      · have := hs hc
        simp only [hc, if_true, Nat.add_zero]
        exact Nat.div_eq_of_lt this
      · simp [hc]
    rw [this]
    simp [run, stables]
  | succ k ih =>
    intro s hs
    simp only [List.replicate_succ, run, stables_append]
    rcases on_result_cases domain v s hv with ⟨hc, hk, h1, h2, h3⟩ | ⟨hc, hk, h1, h2, h3⟩ |
      ⟨hc, h1, h2, h3⟩
    · have hlt := hs hc
      have i := ih (on_result domain (some v) s).1 (by rw [h3]; intro; decide)
      rw [h3] at i
      simp only [ite_self, Nat.zero_add] at i
      rw [h1, i, if_pos hc]
      have e : (s.candidate_count + (k + 1)) / STABLE_COUNT = k / STABLE_COUNT + 1 := by
        simp only [STABLE_COUNT] at *
        omega
      rw [e, List.replicate_succ]
      rfl
    · have i := ih (on_result domain (some v) s).1 (by rw [h3]; intro; exact hk)
      rw [h3, if_pos h2] at i
      rw [h1, i, if_pos hc]
      have e : s.candidate_count + 1 + k = s.candidate_count + (k + 1) := by omega
      rw [e]
      rfl
    · have i := ih (on_result domain (some v) s).1 (by rw [h3]; intro; decide)
      rw [h3, if_pos h2] at i
      rw [h1, i, if_neg hc]
      have e : 1 + k = 0 + (k + 1) := by omega
      rw [e]
      rfl

theorem inv_step (domain u : CStr) (hu : Extracted u) (s : State) (hist : List CStr)
    (h : Inv s hist) : Inv (on_result domain (some u) s).1 (hist ++ [u]) := by
  obtain ⟨-, -, pre, hpre⟩ := h
  rcases on_result_cases domain u s hu with ⟨-, -, -, h2, h3⟩ | ⟨hc, hk, -, h2, h3⟩ |
    ⟨-, -, h2, h3⟩
  · refine ⟨by rw [h3]; decide, by rw [h2, h3]; simp, ?_⟩
    rw [h3]
    exact List.nil_suffix
  · refine ⟨by rw [h3]; exact hk, by rw [h2, h3]; simp [hu.ne_nil], ?_⟩
    rw [h2, h3, List.replicate_succ', ← hpre, hc, List.append_assoc]
    exact List.suffix_append _ _
  · refine ⟨by rw [h3]; decide, by rw [h2, h3]; simp [hu.ne_nil], ?_⟩
    rw [h2, h3]
    exact List.suffix_append _ _

theorem inv_run (domain : CStr) (rs : List (Option CStr))
    (hrs : ∀ u, some u ∈ rs → Extracted u) :
    ∀ (s : State) (hist : List CStr), Inv s hist →
      Inv (run domain rs s).1 (hist ++ rs.reduceOption) := by
  induction rs with
  | nil => intro s hist h; simpa [run] using h
  | cons r rest ih =>
    intro s hist h
    have ih' := ih (fun u hu => hrs u (List.mem_cons_of_mem _ hu))
    cases r with
    | none =>
      rw [List.reduceOption_cons_of_none]
      simpa [run, on_result] using ih' s hist h
    | some u =>
      have hu : Extracted u := hrs u (List.mem_cons_self _ _)
      rw [List.reduceOption_cons_of_some]
      have := ih' _ _ (inv_step domain u hu s hist h)
      simpa [run] using this

/-! ## Lemmas on persistence -/

theorem tmp_name_ne (path : CStr) (pid : Nat) (h : path.length < 1023) :
    tmp_name path pid ≠ path := by
  intro e
  have hl := congrArg List.length e
  simp only [tmp_name, List.length_take, List.length_append] at hl
  have : (".tmp.".toList).length = 5 := by decide
  omega

theorem last_sent_file_length : LAST_SENT_FILE.length = 29 := by decide

/-- A failed `atomic_write` leaves the canonical file as it was. -/
theorem atomic_write_fail_unchanged (pid : Nat) (o : Sys) (path data : CStr) (fs : FS)
    (hp : path.length < 1023) (h : (atomic_write pid o path data fs).1 = -1) :
    (atomic_write pid o path data fs).2 path = fs path := by
  have hne : path ≠ tmp_name path pid := fun e => tmp_name_ne path pid hp e.symm
  unfold atomic_write at h ⊢
  by_cases ho : o.open_ok = true
  · by_cases hw : o.write_ret < 0
    · simp [ho, hw, FS.set, hne]
    · by_cases hr : o.rename_ok = true
      · simp [ho, hw, hr] at h
      · simp [ho, hw, hr, FS.set, hne]
  · simp [ho]

/-- After an `atomic_write` that returns 0 the canonical file holds the bytes that `write`
reported as written. -/
theorem atomic_write_ok_content (pid : Nat) (o : Sys) (path data : CStr) (fs : FS)
    (hp : path.length < 1023) (h : (atomic_write pid o path data fs).1 = 0) :
    (atomic_write pid o path data fs).2 path = some (data.take o.write_ret.toNat) := by
  have hne : tmp_name path pid ≠ path := tmp_name_ne path pid hp
  have hne' : path ≠ tmp_name path pid := fun e => hne e.symm
  unfold atomic_write at h ⊢
  by_cases ho : o.open_ok = true
  · by_cases hw : o.write_ret < 0
    · simp [ho, hw] at h
    · by_cases hr : o.rename_ok = true
      · simp [ho, hw, hr, FS.set, hne, hne']
      · simp [ho, hw, hr] at h
  · simp [ho] at h

/-- A complete save followed by a load gives the saved value back. -/
theorem read_after_write (pid : Nat) (o : Sys) (fs : FS) (v : CStr) (hv : Extracted v)
    (ho : o.open_ok = true) (hw : o.write_ret = v.length) (hr : o.rename_ok = true) :
    read_last_sent (write_last_sent pid o v fs) [] MAXURL = (1, v) := by
  have hnn : ¬ ((v.length : Int) < 0) := by omega
  have hret : (atomic_write pid o LAST_SENT_FILE v fs).1 = 0 := by
    simp [atomic_write, ho, hw, hr, hnn]
  have hc := atomic_write_ok_content pid o LAST_SENT_FILE v fs
    (by rw [last_sent_file_length]; decide) hret
  rw [hw, Int.toNat_ofNat, List.take_length] at hc
  obtain ⟨line, hl⟩ := hv
  have hlen := extract_length line MAXURL v hl
  have hne : v ≠ [] := Extracted.ne_nil ⟨line, hl⟩
  have hsp := extract_no_space line MAXURL v hl
  unfold read_last_sent write_last_sent
  rw [hc]
  have ht : v.take (MAXURL - 1) = v := List.take_of_length_le hlen
  have hnl : v.takeWhile (fun c => c != '\n') = v := by
    rw [List.takeWhile_eq_self_iff]
    intro c hc
    have := hsp c hc
    simp only [isspace, Bool.or_eq_false_iff] at this
    simp only [bne_iff_ne, ne_eq]
    intro e
    rw [e] at this
    simp at this
  simp only [ht, hnl]
  rw [if_neg (by simpa using hne)]

/-! ## A token longer than the buffer -/

/-- A fragment that carries `trycloudflare.com` passes the test of line 217 and is then cut
off by line 203: the returned value does not contain `trycloudflare.com`, and no token of
the line has a normalized form that contains it. -/
theorem extract_fragment_accepted :
    extract_trycloudflare "https://a#trycloudflare.com".toList MAXURL = some "https://a".toList ∧
      ¬ DOMAIN <:+: "https://a".toList ∧
      extract_claimed_cut "https://a#trycloudflare.com".toList MAXURL = none :=
  ⟨by decide, by decide, by decide⟩

/-! ## Facts about the sample lines -/

theorem extracted_sample : Extracted sample_url := ⟨sample_line, by decide⟩

theorem extracted_a : Extracted url_a := ⟨line_a, by decide⟩

theorem extracted_b : Extracted url_b := ⟨line_b, by decide⟩

/-! ## The claims -/

/-- C1 (debounce correctness): for every finite sequence of extraction results, each a
value returned by `extract_trycloudflare` or NotFound, fed to the tracker from the initial
state (candidate empty, count 0, any marker), a `Stable(v)` event is emitted while the
sequence is processed if and only if the sequence with its NotFound entries removed
contains `STABLE_COUNT = 3` consecutive occurrences of `v`. -/
theorem debounce_correctness (domain m : CStr) (rs : List (Option CStr)) (v : CStr)
    (hrs : ∀ u, some u ∈ rs → Extracted u) :
    v ∈ stables (run domain rs (init m)).2 ↔
      List.replicate STABLE_COUNT v <:+: rs.reduceOption := by
  have hvs : ∀ u ∈ rs.reduceOption, Extracted u :=
    fun u hu => hrs u (List.reduceOption_mem_iff.mp hu)
  rw [run_reduceOption]
  constructor
  · intro h
    simpa [init] using stable_sound domain _ hvs (init m) v h
  · intro h
    have hv : Extracted v := hvs v (h.subset (by simp [STABLE_COUNT]))
    exact stable_complete domain v hv _ (init m) h

theorem debounce_correctness_witness :
    (∀ u, some u ∈ [some url_a, none, some url_a, some url_b, some url_a] → Extracted u) ∧
    (url_a ∈ stables
        (run [] [some url_a, none, some url_a, some url_b, some url_a] (init [])).2 ↔
      List.replicate STABLE_COUNT url_a <:+:
        [some url_a, none, some url_a, some url_b, some url_a].reduceOption) :=
  have h : ∀ u, some u ∈ [some url_a, none, some url_a, some url_b, some url_a] →
      Extracted u := by
    intro u hu
    simp only [List.mem_cons, Option.some.injEq, List.mem_singleton, List.mem_nil_iff,
      or_false] at hu
    rcases hu with rfl | hu | rfl | rfl | rfl
    · exact extracted_a
    · exact absurd hu (by simp)
    · exact extracted_a
    · exact extracted_b
    · exact extracted_a
  ⟨h, debounce_correctness [] [] _ url_a h⟩

/-- C2 (idempotent delivery): in the notifier branch of `main`, entered with cached marker
`m` and stable candidate `v` (a value returned by `extract_trycloudflare`), if `v = m`
then `send_webhook` is not called and the marker is unchanged; if `v ≠ m` then
`send_webhook` is called exactly once, with `(domain, v)`, and afterwards `last_sent = v`. -/
theorem idempotent_delivery (domain m v : CStr) (c : Nat) (hv : Extracted v) :
    (v = m →
      webhooks (notify domain { candidate := v, candidate_count := c, last_sent := m }).2 = [] ∧
      (notify domain { candidate := v, candidate_count := c, last_sent := m }).1.last_sent = m) ∧
    (v ≠ m →
      webhooks (notify domain { candidate := v, candidate_count := c, last_sent := m }).2 =
        [(domain, v)] ∧
      (notify domain { candidate := v, candidate_count := c, last_sent := m }).1.last_sent = v) := by
  have hne := hv.ne_nil
  have hcp := hv.strncpy
  constructor
  · intro e
    subst e
    simp [notify, hne, webhooks]
  · intro e
    have e' : ¬ m = v := fun h => e h.symm
    simp [notify, e', webhooks, hcp]

theorem idempotent_delivery_witness :
    Extracted url_a ∧
    (url_a = url_b →
      webhooks (notify [] { candidate := url_a, candidate_count := 3, last_sent := url_b }).2
        = [] ∧
      (notify [] { candidate := url_a, candidate_count := 3, last_sent := url_b }).1.last_sent
        = url_b) ∧
    (url_a ≠ url_b →
      webhooks (notify [] { candidate := url_a, candidate_count := 3, last_sent := url_b }).2 =
        [([], url_a)] ∧
      (notify [] { candidate := url_a, candidate_count := 3, last_sent := url_b }).1.last_sent
        = url_a) :=
  ⟨extracted_a, idempotent_delivery [] url_b url_a 3 extracted_a⟩

/-- C7, as stated, fails: after `a` and then `b` have been sent, a new stable `a` is sent
again, so the calls of one run are `a, b, a`. -/
theorem resend_after_change :
    (webhooks (main_loop [] [line_a, line_a, line_a, line_b, line_b, line_b,
        line_a, line_a, line_a] (init [])).2).map Prod.snd = [url_a, url_b, url_a] ∧
    ¬ ∀ (domain m : CStr) (lines : List CStr),
        ((webhooks (main_loop domain lines (init m)).2).map Prod.snd).Nodup := by
  have h : (webhooks (main_loop [] [line_a, line_a, line_a, line_b, line_b, line_b,
      line_a, line_a, line_a] (init [])).2).map Prod.snd = [url_a, url_b, url_a] := by
    decide
  refine ⟨h, fun hall => ?_⟩
  have hn := hall [] [] [line_a, line_a, line_a, line_b, line_b, line_b,
    line_a, line_a, line_a]
  rw [h] at hn
  exact absurd hn (by decide)

/-- C7, amended: for every finite sequence of log lines processed by one run of the loop
of `main`, from any initial marker, no two consecutive `send_webhook` calls carry the same
value, and the first call differs from the initial marker. -/
theorem no_consecutive_resend (domain m : CStr) (lines : List CStr) :
    List.Chain (fun a b => a ≠ b) m
      ((webhooks (main_loop domain lines (init m)).2).map Prod.snd) := by
  have h := run_chain domain (lines.map (fun l => extract_trycloudflare l MAXURL))
    (by
      intro u hu
      rw [List.mem_map] at hu
      obtain ⟨l, -, hl⟩ := hu
      exact ⟨l, hl⟩) (init m)
  exact h

/-- C8 (scenario): for every `k ≥ 3`, processing `k` consecutive copies of a line whose
extraction is `v`, from the initial state with no prior marker, makes exactly one
`send_webhook` call, with value `v`, and leaves the marker equal to `v`. -/
theorem stable_line_sent_once (domain line v : CStr) (k : Nat) (hk : STABLE_COUNT ≤ k)
    (hl : extract_trycloudflare line MAXURL = some v) :
    webhooks (main_loop domain (List.replicate k line) (init [])).2 = [(domain, v)] ∧
      (main_loop domain (List.replicate k line) (init [])).1.last_sent = v := by
  have hv : Extracted v := ⟨line, hl⟩
  have hne := hv.ne_nil
  have hne' : ¬ ([] : CStr) = v := fun e => hne e.symm
  obtain ⟨j, rfl⟩ : ∃ j, k = 3 + j := ⟨k - 3, by simp only [STABLE_COUNT] at hk; omega⟩
  have h3 : run domain (List.replicate 3 (some v)) (init []) =
      ({ candidate := [], candidate_count := 0, last_sent := v },
        [Event.stable v, Event.write_outlog v, Event.send_webhook domain v,
          Event.write_last_sent v]) := by
    simp [List.replicate, run, on_result_some_eq domain v _ hv, init, hne', STABLE_COUNT]
  have hrest := no_resend domain v hv (List.replicate j (some v))
    (fun r hr => Or.inl (List.eq_of_mem_replicate hr))
    { candidate := [], candidate_count := 0, last_sent := v } rfl
  unfold main_loop
  rw [List.map_replicate, hl, List.replicate_add, run_append, h3]
  simp only [webhooks_append, hrest.1, hrest.2]
  simp [webhooks]

theorem stable_line_sent_once_witness :
    STABLE_COUNT ≤ 4 ∧ extract_trycloudflare sample_line MAXURL = some sample_url ∧
    webhooks (main_loop [] (List.replicate 4 sample_line) (init [])).2 = [([], sample_url)] ∧
      (main_loop [] (List.replicate 4 sample_line) (init [])).1.last_sent = sample_url :=
  ⟨by decide, by decide,
    stable_line_sent_once [] sample_line sample_url 4 (by decide) (by decide)⟩

/-- C9 (at most once per run): whenever one iteration emits `Stable(v)` the tracker is left
in the state (candidate empty, count 0); and for every `k`, `k` consecutive observations
of `v` from a state whose candidate is not `v` yield exactly `k / STABLE_COUNT` events
`Stable(v)`. -/
theorem at_most_once_per_run (domain v : CStr) (hv : Extracted v) :
    (∀ (r : Option CStr) (s : State), Event.stable v ∈ (on_result domain r s).2 →
      (on_result domain r s).1.candidate = [] ∧
        (on_result domain r s).1.candidate_count = 0) ∧
    (∀ (k : Nat) (s : State), s.candidate ≠ v →
      stables (run domain (List.replicate k (some v)) s).2 =
        List.replicate (k / STABLE_COUNT) v) := by
  constructor
  · intro r s h
    cases r with
    | none => simp [on_result] at h
    | some u =>
      by_cases hk : STABLE_COUNT ≤ (track u s).candidate_count
      · simp [on_result, hk]
      · simp [on_result, hk] at h
  · intro k s hs
    have := stables_replicate domain v hv k s (fun e => absurd e hs)
    rw [if_neg hs, Nat.zero_add] at this
    exact this

theorem at_most_once_per_run_witness :
    Extracted url_a ∧
    (∀ (r : Option CStr) (s : State), Event.stable url_a ∈ (on_result [] r s).2 →
      (on_result [] r s).1.candidate = [] ∧ (on_result [] r s).1.candidate_count = 0) ∧
    (∀ (k : Nat) (s : State), s.candidate ≠ url_a →
      stables (run [] (List.replicate k (some url_a)) s).2 =
        List.replicate (k / STABLE_COUNT) url_a) :=
  ⟨extracted_a, at_most_once_per_run [] url_a extracted_a⟩

/-- C10 (tracker invariant): after any finite sequence of lines processed by the loop of
`main` from its initial state, `candidate_count < STABLE_COUNT`, `candidate_count = 0`
exactly when `candidate` is empty, and when a candidate is active its count is at least 1
and the last `candidate_count` matched values all equal `candidate`; every value returned
by `extract_trycloudflare` begins with `https:` and so is not empty. -/
theorem tracker_invariant (domain m : CStr) (lines : List CStr) :
    (main_loop domain lines (init m)).1.candidate_count < STABLE_COUNT ∧
    ((main_loop domain lines (init m)).1.candidate_count = 0 ↔
      (main_loop domain lines (init m)).1.candidate = []) ∧
    ((main_loop domain lines (init m)).1.candidate ≠ [] →
      1 ≤ (main_loop domain lines (init m)).1.candidate_count ∧
      List.replicate (main_loop domain lines (init m)).1.candidate_count
          (main_loop domain lines (init m)).1.candidate <:+
        lines.filterMap (fun l => extract_trycloudflare l MAXURL)) ∧
    (∀ line v : CStr, extract_trycloudflare line MAXURL = some v →
      "https:".toList <+: v ∧ v ≠ []) := by
  have h := inv_run domain (lines.map (fun l => extract_trycloudflare l MAXURL))
    (by
      intro u hu
      rw [List.mem_map] at hu
      obtain ⟨l, -, hl⟩ := hu
      exact ⟨l, hl⟩) (init m) []
    ⟨by simp [init, STABLE_COUNT], by simp [init], by simp [init]⟩
  have e : (lines.map (fun l => extract_trycloudflare l MAXURL)).reduceOption =
      lines.filterMap (fun l => extract_trycloudflare l MAXURL) := by
    simp [List.reduceOption, List.filterMap_map]
  rw [List.nil_append, e] at h
  obtain ⟨h1, h2, h3⟩ := h
  refine ⟨h1, h2, fun hc => ⟨?_, h3⟩, fun line v hl => ?_⟩
  · have : (main_loop domain lines (init m)).1.candidate_count ≠ 0 := fun e0 => hc (h2.mp e0)
    exact Nat.one_le_iff_ne_zero.mpr this
  · exact ⟨extract_https line MAXURL v (by decide) hl, Extracted.ne_nil ⟨line, hl⟩⟩


/-- C4, as stated, fails: trailing `/` are removed after the punctuation has been trimmed,
so the value returned for `https://x.trycloudflare.com/./` ends with `.`. -/
theorem extract_ends_with_dot :
    extract_trycloudflare "https://x.trycloudflare.com/./".toList MAXURL =
        some "https://x.trycloudflare.com/.".toList ∧
      ("https://x.trycloudflare.com/.".toList).getLast? = some '.' ∧
      is_punct '.' = true := by
  refine ⟨?_, ?_, ?_⟩ <;> decide

/-- C4, amended: a value returned by `extract_trycloudflare` contains no `#` and no white
space, does not end with `/`, and ends with one of the trimmed punctuation characters only
where that character is directly followed by `/` in the line. -/
theorem extracted_value_shape (line : CStr) (outsz : Nat) (u : CStr)
    (h : extract_trycloudflare line outsz = some u) :
    '#' ∉ u ∧ (∀ c ∈ u, isspace c = false) ∧ u.getLast? ≠ some '/' ∧
      (∀ c, u.getLast? = some c → is_punct c = true → u ++ ['/'] <:+: line) := by
  have hsp := extract_no_space line outsz u h
  obtain ⟨t, hsuf, -, -, rfl⟩ := extract_some_form line outsz u h
  generalize htok : trim_trailing ((t.takeWhile (fun c => !isspace c)).take (outsz - 1)) = tok
    at hsp ⊢
  have htok_pre : tok <+: t := by
    rw [← htok]
    exact (List.rdropWhile_prefix _ _).trans
      ((List.take_prefix _ _).trans (List.takeWhile_prefix _))
  refine ⟨?_, hsp, ?_, ?_⟩
  · intro hm
    have h1 : '#' ∈ trim_trailing (tok.takeWhile (fun c => c != '#')) :=
      (List.rdropWhile_prefix (fun c => c == '/') _).subset hm
    have h2 : '#' ∈ tok.takeWhile (fun c => c != '#') :=
      (List.rdropWhile_prefix (fun c => is_punct c || isspace c) _).subset h1
    have h3 := List.mem_takeWhile_imp h2
    simp at h3
  · intro hl
    have := rdropWhile_getLast (fun c => c == '/') _ '/' hl
    simp at this
  · intro c hc hp
    obtain ⟨k, hk⟩ := rdropWhile_eq_replicate '/'
      (trim_trailing (tok.takeWhile (fun c => c != '#')))
    have hk' : normalize_url tok ++ List.replicate k '/' =
        trim_trailing (tok.takeWhile (fun c => c != '#')) := hk
    cases k with
    | zero =>
      rw [List.replicate_zero, List.append_nil] at hk'
      rw [hk'] at hc
      have := rdropWhile_getLast (fun c => is_punct c || isspace c) _ c hc
      simp only [Bool.or_eq_false_iff] at this
      rw [this.1] at hp
      exact absurd hp (by simp)
    | succ k =>
      have h1 : normalize_url tok ++ ['/'] <+:
          trim_trailing (tok.takeWhile (fun c => c != '#')) := by
        rw [← hk', List.replicate_succ]
        exact ⟨List.replicate k '/', by simp⟩
      have h2 : normalize_url tok ++ ['/'] <+: t :=
        h1.trans ((List.rdropWhile_prefix _ _).trans
          ((List.takeWhile_prefix _).trans htok_pre))
      exact h2.isInfix.trans hsuf.isInfix

theorem extracted_value_shape_witness :
    extract_trycloudflare sample_line MAXURL = some sample_url ∧
    ('#' ∉ sample_url ∧ (∀ c ∈ sample_url, isspace c = false) ∧
      sample_url.getLast? ≠ some '/' ∧
      (∀ c, sample_url.getLast? = some c → is_punct c = true →
        sample_url ++ ['/'] <:+: sample_line)) :=
  ⟨by decide, extracted_value_shape sample_line MAXURL sample_url (by decide)⟩

/-- A save whose `open` and `rename` succeed and whose `write` writes all of `v`, followed
by a restart: `read_last_sent` yields `v`, and the restarted loop makes no `send_webhook`
call however many times it observes `v`. -/
theorem restart_after_complete_write (pid : Nat) (o : Sys) (fs : FS) (v : CStr)
    (hv : Extracted v) (ho : o.open_ok = true) (hw : o.write_ret = v.length)
    (hr : o.rename_ok = true) :
    read_last_sent (write_last_sent pid o v fs) [] MAXURL = (1, v) ∧
    ∀ (domain : CStr) (lines : List CStr),
      (∀ l ∈ lines, extract_trycloudflare l MAXURL = some v ∨
        extract_trycloudflare l MAXURL = none) →
      webhooks (main_loop domain lines (startup (write_last_sent pid o v fs))).2 = [] := by
  have hread := read_after_write pid o fs v hv ho hw hr
  refine ⟨hread, fun domain lines hl => ?_⟩
  have := no_resend domain v hv (lines.map (fun l => extract_trycloudflare l MAXURL))
    (by
      intro r hr
      rw [List.mem_map] at hr
      obtain ⟨l, hmem, rfl⟩ := hr
      exact hl l hmem)
    (startup (write_last_sent pid o v fs)) (by simp [startup, init, hread])
  exact this.1

/-- C5, at the failing input: the save of `https://ex.trycloudflare.com` whose `write`
stores 5 bytes succeeds as far as the code can tell (`atomic_write` returns 0); after a
restart `read_last_sent` yields `https`, not the saved value, and three observations of the
same value make the restarted loop call `send_webhook` with it again. -/
theorem restart_after_short_write :
    Extracted sample_url ∧
    (atomic_write 4242 short_write LAST_SENT_FILE sample_url (marker_fs url_a)).1 = 0 ∧
    read_last_sent (write_last_sent 4242 short_write sample_url (marker_fs url_a)) [] MAXURL =
      (1, "https".toList) ∧
    webhooks (main_loop [] [sample_line, sample_line, sample_line]
      (startup (write_last_sent 4242 short_write sample_url (marker_fs url_a)))).2 =
      [([], sample_url)] :=
  ⟨extracted_sample, by decide, by decide, by decide⟩

/-- C6, at the failing input: `write` stores 5 of the 28 bytes of the new marker and
returns 5; `atomic_write` renames the temporary file all the same and returns 0, and the
canonical file, which held `https://a.trycloudflare.com`, is left with `https`. -/
theorem atomic_write_short_write :
    (atomic_write 4242 { open_ok := true, write_ret := 5, rename_ok := true }
        LAST_SENT_FILE sample_url (marker_fs url_a)).1 = 0 ∧
    (atomic_write 4242 { open_ok := true, write_ret := 5, rename_ok := true }
        LAST_SENT_FILE sample_url (marker_fs url_a)).2 LAST_SENT_FILE = some "https".toList ∧
    marker_fs url_a LAST_SENT_FILE = some url_a ∧
    "https".toList ≠ sample_url ∧ "https".toList ≠ url_a := by
  refine ⟨?_, ?_, ?_, ?_, ?_⟩ <;> decide

end Cloudflared
